import Mathlib

/-
  Verification development for the compaction-safeguard retention/eviction core
  and the session helper utilities of this repository.

  The compaction-safeguard implementation itself is not part of this corpus
  slice (only its test suite is), so its operations are modelled from the
  specification, cross-checked against the expectations recorded in the test
  suite.  `stripToolMessages` is translated directly from
  src/agents/tools/sessions-helpers.ts.
-/

set_option maxRecDepth 8000

/-! ## Data model: messages and content blocks -/

/-- Modelled from the spec: one typed content block of a message
(`content` may be an ordered sequence of blocks, each either text or other
media).  The compaction-safeguard implementation is absent from the corpus;
the shape follows section 3 of the specification. -/
inductive ContentBlock where
  | text (content : String)
  | other
  deriving DecidableEq

/-- Modelled from the spec: message content is either a plain string or an
ordered sequence of typed content blocks. -/
inductive MessageContent where
  | str (s : String)
  | blocks (bs : List ContentBlock)
  deriving DecidableEq

/-- Modelled from the spec: one conversation turn.  A `toolResult` message
additionally carries `toolCallId`, `toolName`, `isError` and optional
`details` (free-form key/value metadata, values already rendered as text). -/
structure Message where
  role : String
  content : MessageContent
  toolCallId : String := ""
  toolName : String := ""
  isError : Bool := false
  details : List (String × String) := []
  deriving DecidableEq

/-- Modelled from the spec: `estimateTokens(text)` approximates the token
count from the character length at the reference ratio of 4 characters per
token (rounding up). -/
def estimateTokens (text : String) : Nat :=
  (text.length + 3) / 4

/-- Modelled from the spec: token estimate of a whole message.  For array
content the estimate is summed over all text-bearing blocks; non-text blocks
contribute zero. -/
def estimateMessageTokens (m : Message) : Nat :=
  match m.content with
  | .str s => estimateTokens s
  | .blocks bs =>
      (bs.map fun b =>
        match b with
        | .text t => estimateTokens t
        | .other => 0).sum

/-! ## Data model: session entries -/

/-- Modelled from the spec: the variant kinds of a session-log entry. -/
inductive EntryKind where
  | message
  | custom_message
  | thinking_level_change
  | model_change
  | compaction
  deriving DecidableEq

/-- Modelled from the spec: one node of the persisted session log.  Only the
fields the cut-point adjuster inspects (`type` tag and `id`) are retained;
payloads, `parentId` and timestamps play no role in the algorithm. -/
structure SessionEntry where
  kind : EntryKind
  id : String
  deriving DecidableEq

/-- Modelled from the spec: only `message` and `custom_message` entries count
toward the message count; metadata markers are invisible to counting. -/
def isMessageEntry (e : SessionEntry) : Bool :=
  match e.kind with
  | .message => true
  | .custom_message => true
  | _ => false

/-- Modelled from the spec: count of message/custom_message entries from
`startIndex` (inclusive) to the end of the sequence. -/
def countMessagesFromIndex (entries : List SessionEntry) (startIndex : Nat) : Nat :=
  ((entries.drop startIndex).filter isMessageEntry).length

/-- Index of the last `compaction` entry of the list, if any (helper for
`findLastCompactionIndex`). -/
def lastCompactionIdx? : List SessionEntry → Option Nat
  | [] => none
  | e :: rest =>
      match lastCompactionIdx? rest with
      | some i => some (i + 1)
      | none => if e.kind = EntryKind.compaction then some 0 else none

/-- Modelled from the spec: index of the most recent `compaction` entry, or
`-1` when none exists (mirroring the tested API). -/
def findLastCompactionIndex (entries : List SessionEntry) : Int :=
  match lastCompactionIdx? entries with
  | some i => (i : Int)
  | none => -1

/-- Modelled from the spec: the earliest permissible index for the backward
walk — the index immediately after the most recent `compaction` entry that
occurs before the cut point, or index 0 if no such entry exists. -/
def earliestPermissibleIndex (entries : List SessionEntry) (cutIndex : Nat) : Nat :=
  match lastCompactionIdx? (entries.take cutIndex) with
  | some i => i + 1
  | none => 0

/-- Index of the first entry whose `id` equals the given id, if present. -/
def findEntryIndex : List SessionEntry → String → Option Nat
  | [], _ => none
  | e :: rest, cutEntryId =>
      if e.id = cutEntryId then some 0
      else (findEntryIndex rest cutEntryId).map (· + 1)

/-- Modelled from the spec: result record of a successful cut-point
adjustment. -/
structure AdjustResult where
  adjusted : Bool
  newFirstKeptEntryId : String
  messagesToAdd : List SessionEntry
  deriving DecidableEq

/-- Modelled from the spec: the backward walk of the cut-point adjuster,
expressed over the candidate segment in backward order (the reversed slice
between the earliest permissible index and the cut point).  Returns the
number of entries crossed and the collected entries in the order they were
encountered.  A `compaction` entry terminates the walk before being crossed;
message/custom_message entries increment the running count and stop the walk
as soon as `need` is reached.  Per the repository's test expectations
(`messagesToAdd` has length 1 in the metadata example), metadata markers are
crossed by the walk but are not collected. -/
def walkBackSeg (need : Nat) : List SessionEntry → Nat × List SessionEntry
  | [] => (0, [])
  | e :: rest =>
      if e.kind = EntryKind.compaction then (0, [])
      else if isMessageEntry e then
        if need ≤ 1 then (1, [e])
        else
          let w := walkBackSeg (need - 1) rest
          (w.1 + 1, e :: w.2)
      else
        let w := walkBackSeg need rest
        (w.1 + 1, w.2)

/-- The candidate segment of the backward walk: the entries strictly between
the earliest permissible index (inclusive) and the cut point (exclusive), in
forward order. -/
def walkSegment (entries : List SessionEntry) (cutIndex : Nat) : List SessionEntry :=
  (entries.drop (earliestPermissibleIndex entries cutIndex)).take
    (cutIndex - earliestPermissibleIndex entries cutIndex)

/-- The backward walk from the cut point: `walkBackSeg` applied to the
reversed candidate segment. -/
def walkBack (entries : List SessionEntry) (cutIndex need : Nat) : Nat × List SessionEntry :=
  walkBackSeg need (walkSegment entries cutIndex).reverse

/-- Builds the adjustment result from the walk: `none` when no entry was
crossed, otherwise the entry at the new boundary index together with the
collected entries in original forward order. -/
def adjustWalkResult (entries : List SessionEntry) (cutIndex need : Nat) : Option AdjustResult :=
  if (walkBack entries cutIndex need).1 = 0 then none
  else
    match entries[cutIndex - (walkBack entries cutIndex need).1]? with
    | none => none
    | some e => some ⟨true, e.id, (walkBack entries cutIndex need).2.reverse⟩

/-- Modelled from the spec: `adjustCutPointForMinMessages(entries, cutEntryId,
minMessages)`.  Returns `none` when the cut id is absent, when the current
count already satisfies the minimum, or when the walk cannot move the
boundary; otherwise the new boundary index is the cut index minus the number
of crossed entries and `messagesToAdd` holds the collected entries in
original forward order. -/
def adjustCutPointForMinMessages (entries : List SessionEntry) (cutEntryId : String)
    (minMessages : Nat) : Option AdjustResult :=
  match findEntryIndex entries cutEntryId with
  | none => none
  | some cutIndex =>
      if minMessages ≤ countMessagesFromIndex entries cutIndex then none
      else adjustWalkResult entries cutIndex (minMessages - countMessagesFromIndex entries cutIndex)

/-! ## Adaptive chunk sizing and oversize detection -/

/-- Modelled from the spec: `BASE_CHUNK_RATIO`, the default fraction of
history compacted per pass under normal conditions (example value consistent
with tests: 0.5). -/
def baseChunkRatio : ℚ := 1 / 2

/-- Modelled from the spec: `MIN_CHUNK_RATIO`, the hard floor of the chunk
ratio (example value consistent with tests: 0.1). -/
def minChunkRatio : ℚ := 1 / 10

/-- Modelled from the spec: `SAFETY_MARGIN`, a constant greater than 1
(reference value 1.2) representing summarization/formatting overhead. -/
def SAFETY_MARGIN : ℚ := 6 / 5

/-- Modelled from the spec: mean of the per-message token estimates
(0 for an empty list, by the rational convention `0 / 0 = 0`). -/
def averageMessageTokens (messages : List Message) : ℚ :=
  ((messages.map fun m => ((estimateMessageTokens m : ℚ))).sum) / (messages.length : ℚ)

/-- Modelled from the spec: `shareOfContext`, the mean per-message token
estimate divided by the context window. -/
def shareOfContext (messages : List Message) (contextWindow : Nat) : ℚ :=
  averageMessageTokens messages / (contextWindow : ℚ)

/-- Modelled from the spec: `computeAdaptiveChunkRatio(messages,
contextWindow)`.  Empty input returns the base ratio; a share of context of
at most 0.10 returns the base ratio; beyond that the ratio scales down
inverse-proportionally to the share (the curve left open by the spec),
clamped to `[minChunkRatio, baseChunkRatio]`. -/
def computeAdaptiveChunkRatio (messages : List Message) (contextWindow : Nat) : ℚ :=
  if messages.isEmpty then baseChunkRatio
  else if shareOfContext messages contextWindow ≤ 1 / 10 then baseChunkRatio
  else
    max minChunkRatio
      (min baseChunkRatio (baseChunkRatio * (1 / 10) / shareOfContext messages contextWindow))

/-- Modelled from the spec: `isOversizedForSummary(message, contextWindow)`
returns true iff the estimated tokens of the message, multiplied by the
safety margin, exceed half the context window. -/
def isOversizedForSummary (m : Message) (contextWindow : Nat) : Bool :=
  decide ((contextWindow : ℚ) * (1 / 2) < (estimateMessageTokens m : ℚ) * SAFETY_MARGIN)

/-! ## Tool failure collection and formatting -/

/-- Modelled from the spec: derived record of one failed tool invocation. -/
structure ToolFailure where
  toolCallId : String
  toolName : String
  meta : String
  message : String
  deriving DecidableEq

/-- Modelled from the spec: the `meta` string of a failure is built by
joining the present `details` keys as `key=value` pairs in the order found;
absent/empty details yield the empty string. -/
def failureMeta (m : Message) : String :=
  String.intercalate " " (m.details.map fun kv => kv.1 ++ "=" ++ kv.2)

/-- The text-bearing parts of a message's content, in order (a plain string
is one part; array content contributes its text blocks). -/
def textParts (m : Message) : List String :=
  match m.content with
  | .str s => [s]
  | .blocks bs =>
      bs.filterMap fun b =>
        match b with
        | .text t => some t
        | .other => none

/-- Modelled from the spec: the `message` of a failure is the concatenation
of the text blocks in order, or the literal string "failed" when none
exist. -/
def failureMessage (m : Message) : String :=
  if (textParts m).isEmpty then "failed" else String.join (textParts m)

/-- Modelled from the spec: the `ToolFailure` derived from one failing
tool-result message. -/
def mkToolFailure (m : Message) : ToolFailure :=
  ⟨m.toolCallId, m.toolName, failureMeta m, failureMessage m⟩

/-- Modelled from the spec: a message counts as a failing tool result when
its role is `toolResult` and `isError` is true. -/
def isFailingToolResult (m : Message) : Bool :=
  m.role = "toolResult" ∧ m.isError = true

/-- Modelled from the spec: the scan underlying `collectToolFailures`,
carrying the set of already-seen `toolCallId`s. -/
def collectToolFailuresAux : List Message → List String → List ToolFailure
  | [], _ => []
  | m :: rest, seen =>
      if isFailingToolResult m then
        if seen.contains m.toolCallId then collectToolFailuresAux rest seen
        else mkToolFailure m :: collectToolFailuresAux rest (m.toolCallId :: seen)
      else collectToolFailuresAux rest seen

/-- Modelled from the spec: `collectToolFailures(messages)` filters to
failing tool results, deduplicates by `toolCallId` (first occurrence wins)
and keeps input order. -/
def collectToolFailures (messages : List Message) : List ToolFailure :=
  collectToolFailuresAux messages []

/-- First-occurrence deduplication of failures by `toolCallId`, carrying the
seen ids (declarative counterpart used to characterize the scan). -/
def dedupFailuresAux : List ToolFailure → List String → List ToolFailure
  | [], _ => []
  | f :: rest, seen =>
      if seen.contains f.toolCallId then dedupFailuresAux rest seen
      else f :: dedupFailuresAux rest (f.toolCallId :: seen)

/-- First-occurrence deduplication of failures by `toolCallId`. -/
def dedupFailures (failures : List ToolFailure) : List ToolFailure :=
  dedupFailuresAux failures []

/-- Modelled from the spec: one rendered failure line,
`"<toolName> (<meta>): <message>"`, with the parenthetical omitted when the
meta string is empty. -/
def formatFailureLine (f : ToolFailure) : String :=
  if f.meta = "" then f.toolName ++ ": " ++ f.message
  else f.toolName ++ " (" ++ f.meta ++ "): " ++ f.message

/-- Modelled from the spec: `formatToolFailuresSection(failures)` returns the
empty string for no failures; otherwise a Markdown section headed
`## Tool Failures` with at most 8 failure lines, followed by one overflow
line when more than 8 failures exist. -/
def formatToolFailuresSection (failures : List ToolFailure) : String :=
  if failures.isEmpty then ""
  else
    "## Tool Failures\n" ++
      String.intercalate "\n"
        ((failures.take 8).map formatFailureLine ++
          (if 8 < failures.length then
            ["...and " ++ toString (failures.length - 8) ++ " more"]
          else []))

/-! ## Runtime configuration registry -/

/-- Modelled from the spec: a session-manager identity as seen by the
registry — a genuine object identity (keyed by a stable handle) or one of
the invalid identities `null` and `undefined`. -/
inductive SessionManagerId where
  | obj (n : Nat)
  | nullId
  | undefinedId
  deriving DecidableEq

/-- Modelled from the spec: the mutable runtime policy object
`{maxHistoryShare, minPreservedMessages}` associated with a session-manager
identity. -/
structure CompactionSafeguardRuntime where
  maxHistoryShare : Option ℚ := none
  minPreservedMessages : Option Nat := none
  deriving DecidableEq

/-- Modelled from the spec: the state of the identity-keyed registry — the
configuration (if any) stored for each valid object identity. -/
def RuntimeRegistry : Type := Nat → Option CompactionSafeguardRuntime

/-- The registry with no associations. -/
def emptyRegistry : RuntimeRegistry := fun _ => none

/-- Modelled from the spec: `set(identity, configuration | null)` —
associates or clears the configuration for that identity; invalid identities
(null/undefined) are silently ignored. -/
def setCompactionSafeguardRuntime (reg : RuntimeRegistry) (sm : SessionManagerId)
    (cfg : Option CompactionSafeguardRuntime) : RuntimeRegistry :=
  match sm with
  | .obj n => fun k => if k = n then cfg else reg k
  | _ => reg

/-- Modelled from the spec: `get(identity)` — the associated configuration,
or null when none was set or the identity is invalid. -/
def getCompactionSafeguardRuntime (reg : RuntimeRegistry) (sm : SessionManagerId) :
    Option CompactionSafeguardRuntime :=
  match sm with
  | .obj n => reg n
  | _ => none

/-! ## stripToolMessages (translated from src/agents/tools/sessions-helpers.ts) -/

/-- A JavaScript `unknown` value, as far as `stripToolMessages` can observe
it: primitives, `null`/`undefined`, objects (ordered key/value fields) and
arrays. -/
inductive UnknownVal where
  | nullV
  | undefinedV
  | boolV (b : Bool)
  | numV (q : ℚ)
  | strV (s : String)
  | objV (fields : List (String × UnknownVal))
  | arrV (elems : List UnknownVal)

/-- JavaScript `typeof` for the modelled values (`typeof null` is
"object"; arrays are "object"). -/
def typeOf : UnknownVal → String
  | .nullV => "object"
  | .undefinedV => "undefined"
  | .boolV _ => "boolean"
  | .numV _ => "number"
  | .strV _ => "string"
  | .objV _ => "object"
  | .arrV _ => "object"

/-- JavaScript falsiness of the modelled values. -/
def isFalsy : UnknownVal → Bool
  | .nullV => true
  | .undefinedV => true
  | .boolV b => !b
  | .numV q => q = 0
  | .strV s => s = ""
  | _ => false

/-- First field with the given key, if any (property access on an object). -/
def lookupField : List (String × UnknownVal) → String → Option UnknownVal
  | [], _ => none
  | kv :: rest, key => if kv.1 = key then some kv.2 else lookupField rest key

/-- The `role` property of a value: defined only for objects, `undefined`
(here `none`) otherwise. -/
def getRoleProp : UnknownVal → Option UnknownVal
  | .objV fields => lookupField fields "role"
  | _ => none

/-- Whether the `role` property is (strictly) the string "toolResult". -/
def roleIsToolResult (v : UnknownVal) : Bool :=
  match getRoleProp v with
  | some (.strV s) => s = "toolResult"
  | _ => false

/-- Translated from src/agents/tools/sessions-helpers.ts: keep every element
that is falsy or not of object type; for object-typed values keep it unless
its `role` property is the string "toolResult". -/
def stripToolMessages (messages : List UnknownVal) : List UnknownVal :=
  messages.filter fun msg =>
    if isFalsy msg || !(typeOf msg = "object" : Bool) then true
    else !(roleIsToolResult msg)

/-- The claim's wording, as its own predicate: an object whose `role`
property equals "toolResult". -/
def isToolResultObject : UnknownVal → Bool
  | .objV fields =>
      match lookupField fields "role" with
      | some (.strV s) => s = "toolResult"
      | _ => false
  | _ => false

/-- Shorthand for a `message` entry with a given id. -/
def msgE (i : String) : SessionEntry := ⟨EntryKind.message, i⟩

/-- Shorthand for a `thinking_level_change` entry with a given id. -/
def tlcE (i : String) : SessionEntry := ⟨EntryKind.thinking_level_change, i⟩

/-- Shorthand for a `model_change` entry with a given id. -/
def mcE (i : String) : SessionEntry := ⟨EntryKind.model_change, i⟩

/-- Shorthand for a `compaction` entry with a given id. -/
def compE (i : String) : SessionEntry := ⟨EntryKind.compaction, i⟩

/-! ## Helper lemmas: compaction indices and entry lookup -/

theorem lastCompactionIdx?_none : ∀ (l : List SessionEntry), lastCompactionIdx? l = none →
    ∀ (j : Nat) (e : SessionEntry), l[j]? = some e → e.kind ≠ EntryKind.compaction := by
  intro l
  induction l with
  | nil =>
      intro _ j e hj
      simp at hj
  | cons a rest ih =>
      intro h j e hj
      rw [lastCompactionIdx?] at h
      cases hrest : lastCompactionIdx? rest with
      | some k => rw [hrest] at h; simp at h
      | none =>
          rw [hrest] at h
          by_cases hc : a.kind = EntryKind.compaction
          · rw [if_pos hc] at h; simp at h
          · rw [if_neg hc] at h
            cases j with
            | zero =>
                rw [List.getElem?_cons_zero] at hj
                cases hj
                exact hc
            | succ j' =>
                rw [List.getElem?_cons_succ] at hj
                exact ih hrest j' e hj

theorem lastCompactionIdx?_some : ∀ (l : List SessionEntry) (i : Nat),
    lastCompactionIdx? l = some i →
    i < l.length ∧ ∃ e, l[i]? = some e ∧ e.kind = EntryKind.compaction := by
  intro l
  induction l with
  | nil =>
      intro i h
      simp [lastCompactionIdx?] at h
  | cons a rest ih =>
      intro i h
      rw [lastCompactionIdx?] at h
      cases hrest : lastCompactionIdx? rest with
      | some k =>
          rw [hrest] at h
          cases h
          obtain ⟨hk, e, he, hkind⟩ := ih k hrest
          refine ⟨by simpa using Nat.succ_lt_succ hk, e, ?_, hkind⟩
          simpa [List.getElem?_cons_succ] using he
      | none =>
          rw [hrest] at h
          by_cases hc : a.kind = EntryKind.compaction
          · rw [if_pos hc] at h
            cases h
            exact ⟨Nat.succ_pos _, a, by simp [List.getElem?_cons_zero], hc⟩
          · rw [if_neg hc] at h
            exact absurd h (by simp)

theorem lastCompactionIdx?_isLast : ∀ (l : List SessionEntry) (i : Nat),
    lastCompactionIdx? l = some i →
    ∀ (j : Nat) (e : SessionEntry), i < j → l[j]? = some e → e.kind ≠ EntryKind.compaction := by
  intro l
  induction l with
  | nil =>
      intro i h
      simp [lastCompactionIdx?] at h
  | cons a rest ih =>
      intro i h j e hij hje
      rw [lastCompactionIdx?] at h
      cases hrest : lastCompactionIdx? rest with
      | some k =>
          rw [hrest] at h
          cases h
          cases j with
          | zero => omega
          | succ j' =>
              rw [List.getElem?_cons_succ] at hje
              exact ih k hrest j' e (by omega) hje
      | none =>
          rw [hrest] at h
          by_cases hc : a.kind = EntryKind.compaction
          · rw [if_pos hc] at h
            cases h
            cases j with
            | zero => omega
            | succ j' =>
                rw [List.getElem?_cons_succ] at hje
                exact lastCompactionIdx?_none rest hrest j' e hje
          · rw [if_neg hc] at h
            exact absurd h (by simp)

theorem earliestPermissibleIndex_eq_some {entries : List SessionEntry} {cutIndex i : Nat}
    (h : lastCompactionIdx? (entries.take cutIndex) = some i) :
    earliestPermissibleIndex entries cutIndex = i + 1 := by
  rw [earliestPermissibleIndex, h]

theorem earliestPermissibleIndex_eq_none {entries : List SessionEntry} {cutIndex : Nat}
    (h : lastCompactionIdx? (entries.take cutIndex) = none) :
    earliestPermissibleIndex entries cutIndex = 0 := by
  rw [earliestPermissibleIndex, h]

theorem earliestPermissibleIndex_le (entries : List SessionEntry) (cutIndex : Nat) :
    earliestPermissibleIndex entries cutIndex ≤ cutIndex := by
  cases h : lastCompactionIdx? (entries.take cutIndex) with
  | none => rw [earliestPermissibleIndex_eq_none h]; exact Nat.zero_le _
  | some i =>
      rw [earliestPermissibleIndex_eq_some h]
      have hlen := (lastCompactionIdx?_some _ _ h).1
      rw [List.length_take] at hlen
      omega

theorem no_compaction_after_boundary {entries : List SessionEntry} {cutIndex : Nat}
    (j : Nat) (e : SessionEntry)
    (h1 : earliestPermissibleIndex entries cutIndex ≤ j) (h2 : j < cutIndex)
    (h3 : entries[j]? = some e) : e.kind ≠ EntryKind.compaction := by
  have htake : (entries.take cutIndex)[j]? = some e := by
    rw [List.getElem?_take, if_pos h2]
    exact h3
  cases h : lastCompactionIdx? (entries.take cutIndex) with
  | none => exact lastCompactionIdx?_none _ h j e htake
  | some i =>
      rw [earliestPermissibleIndex_eq_some h] at h1
      exact lastCompactionIdx?_isLast _ i h j e (by omega) htake

theorem boundary_pos_compaction {entries : List SessionEntry} {cutIndex : Nat}
    (hpos : 0 < earliestPermissibleIndex entries cutIndex) :
    ∃ e, entries[earliestPermissibleIndex entries cutIndex - 1]? = some e ∧
      e.kind = EntryKind.compaction ∧
      earliestPermissibleIndex entries cutIndex - 1 < cutIndex := by
  cases h : lastCompactionIdx? (entries.take cutIndex) with
  | none =>
      rw [earliestPermissibleIndex_eq_none h] at hpos
      exact absurd hpos (Nat.lt_irrefl 0)
  | some i =>
      rw [earliestPermissibleIndex_eq_some h]
      obtain ⟨hlen, e, he, hkind⟩ := lastCompactionIdx?_some _ _ h
      rw [List.length_take] at hlen
      have hicut : i < cutIndex := by omega
      refine ⟨e, ?_, hkind, by omega⟩
      rw [List.getElem?_take, if_pos hicut] at he
      simpa using he

theorem findEntryIndex_some : ∀ (entries : List SessionEntry) (cid : String) (i : Nat),
    findEntryIndex entries cid = some i →
    ∃ e, entries[i]? = some e ∧ e.id = cid := by
  intro entries
  induction entries with
  | nil =>
      intro cid i h
      simp [findEntryIndex] at h
  | cons a rest ih =>
      intro cid i h
      rw [findEntryIndex] at h
      by_cases ha : a.id = cid
      · rw [if_pos ha] at h
        cases h
        exact ⟨a, by simp [List.getElem?_cons_zero], ha⟩
      · rw [if_neg ha] at h
        cases hrest : findEntryIndex rest cid with
        | none => rw [hrest] at h; simp at h
        | some k =>
            rw [hrest] at h
            have h' : k + 1 = i := by simpa using h
            subst h'
            obtain ⟨e, he, hid⟩ := ih cid k hrest
            exact ⟨e, by simpa [List.getElem?_cons_succ] using he, hid⟩

theorem findEntryIndex_none : ∀ (entries : List SessionEntry) (cid : String),
    (∀ e ∈ entries, e.id ≠ cid) → findEntryIndex entries cid = none := by
  intro entries
  induction entries with
  | nil => intro cid _; rfl
  | cons a rest ih =>
      intro cid hall
      rw [findEntryIndex]
      rw [if_neg (hall a (List.mem_cons_self a rest))]
      rw [ih cid fun e he => hall e (List.mem_cons_of_mem a he)]
      rfl

/-! ## Helper lemmas: the backward walk -/

theorem walkBackSeg_fst_le : ∀ (l : List SessionEntry) (need : Nat),
    (walkBackSeg need l).1 ≤ l.length := by
  intro l
  induction l with
  | nil => intro need; simp [walkBackSeg]
  | cons e rest ih =>
      intro need
      rw [walkBackSeg]
      by_cases hc : e.kind = EntryKind.compaction
      · rw [if_pos hc]; simp
      · rw [if_neg hc]
        by_cases hm : isMessageEntry e
        · rw [if_pos hm]
          by_cases hn : need ≤ 1
          · rw [if_pos hn]; simp
          · rw [if_neg hn]
            have := ih (need - 1)
            simpa using Nat.succ_le_succ this
        · rw [if_neg hm]
          have := ih need
          simpa using Nat.succ_le_succ this

theorem walkBackSeg_snd_eq : ∀ (l : List SessionEntry) (need : Nat),
    (walkBackSeg need l).2 = (l.take (walkBackSeg need l).1).filter isMessageEntry := by
  intro l
  induction l with
  | nil => intro need; simp [walkBackSeg]
  | cons e rest ih =>
      intro need
      rw [walkBackSeg]
      by_cases hc : e.kind = EntryKind.compaction
      · rw [if_pos hc]; simp
      · rw [if_neg hc]
        by_cases hm : isMessageEntry e
        · rw [if_pos hm]
          by_cases hn : need ≤ 1
          · rw [if_pos hn]
            simp [List.filter_cons, hm]
          · rw [if_neg hn]
            simp only [List.take_succ_cons, List.filter_cons, hm, if_pos]
            rw [← ih (need - 1)]
        · rw [if_neg hm]
          simp only [List.take_succ_cons, List.filter_cons]
          simp only [Bool.not_eq_true] at hm
          simp [hm, ← ih need]

theorem walkBackSeg_len_le : ∀ (l : List SessionEntry) (need : Nat), 1 ≤ need →
    (walkBackSeg need l).2.length ≤ need := by
  intro l
  induction l with
  | nil => intro need _; simp [walkBackSeg]
  | cons e rest ih =>
      intro need hneed
      rw [walkBackSeg]
      by_cases hc : e.kind = EntryKind.compaction
      · rw [if_pos hc]; simp
      · rw [if_neg hc]
        by_cases hm : isMessageEntry e
        · rw [if_pos hm]
          by_cases hn : need ≤ 1
          · rw [if_pos hn]; simpa using hneed
          · rw [if_neg hn]
            have := ih (need - 1) (by omega)
            simp only [List.length_cons]
            omega
        · rw [if_neg hm]
          exact ih need hneed

theorem walkBackSeg_exhausts : ∀ (l : List SessionEntry) (need : Nat),
    (∀ e ∈ l, e.kind ≠ EntryKind.compaction) →
    (l.filter isMessageEntry).length < need →
    walkBackSeg need l = (l.length, l.filter isMessageEntry) := by
  intro l
  induction l with
  | nil => intro need _ _; simp [walkBackSeg]
  | cons e rest ih =>
      intro need hnc hlt
      rw [walkBackSeg]
      have hc : e.kind ≠ EntryKind.compaction := hnc e (List.mem_cons_self e rest)
      rw [if_neg hc]
      have hnc' : ∀ x ∈ rest, x.kind ≠ EntryKind.compaction :=
        fun x hx => hnc x (List.mem_cons_of_mem e hx)
      by_cases hm : isMessageEntry e
      · rw [if_pos hm]
        rw [List.filter_cons, if_pos hm] at hlt ⊢
        simp only [List.length_cons] at hlt
        have hn : ¬ need ≤ 1 := by omega
        rw [if_neg hn]
        rw [ih (need - 1) hnc' (by omega)]
        simp
      · rw [if_neg hm]
        rw [List.filter_cons] at hlt ⊢
        simp only [Bool.not_eq_true] at hm
        simp only [hm, Bool.false_eq_true, if_false] at hlt ⊢
        rw [ih need hnc' hlt]
        simp

/-! ## Helper lemmas: the candidate segment and the adjuster -/

theorem walkSegment_getElem? (entries : List SessionEntry) (cutIndex j : Nat)
    (hj : j < cutIndex - earliestPermissibleIndex entries cutIndex) :
    (walkSegment entries cutIndex)[j]? =
      entries[earliestPermissibleIndex entries cutIndex + j]? := by
  rw [walkSegment, List.getElem?_take, if_pos hj, List.getElem?_drop]

theorem walkSegment_length_le (entries : List SessionEntry) (cutIndex : Nat) :
    (walkSegment entries cutIndex).length ≤
      cutIndex - earliestPermissibleIndex entries cutIndex := by
  rw [walkSegment, List.length_take]
  exact min_le_left _ _

theorem walkSegment_length (entries : List SessionEntry) (cutIndex : Nat)
    (h : cutIndex ≤ entries.length) :
    (walkSegment entries cutIndex).length =
      cutIndex - earliestPermissibleIndex entries cutIndex := by
  have hepi := earliestPermissibleIndex_le entries cutIndex
  rw [walkSegment, List.length_take, List.length_drop]
  omega

theorem walkSegment_no_compaction (entries : List SessionEntry) (cutIndex : Nat) :
    ∀ e ∈ walkSegment entries cutIndex, e.kind ≠ EntryKind.compaction := by
  intro e he
  obtain ⟨⟨j, hj⟩, hget⟩ := List.mem_iff_get.mp he
  have hj' : j < cutIndex - earliestPermissibleIndex entries cutIndex :=
    lt_of_lt_of_le hj (walkSegment_length_le entries cutIndex)
  have h1 : (walkSegment entries cutIndex)[j]? = some e := by
    rw [List.getElem?_eq_getElem hj]
    rw [List.get_eq_getElem] at hget
    rw [hget]
  rw [walkSegment_getElem? entries cutIndex j hj'] at h1
  exact no_compaction_after_boundary (earliestPermissibleIndex entries cutIndex + j) e
    (Nat.le_add_right _ _) (by omega) h1

theorem drop_boundary_decomp (entries : List SessionEntry) (cutIndex : Nat) :
    entries.drop (earliestPermissibleIndex entries cutIndex) =
      walkSegment entries cutIndex ++ entries.drop cutIndex := by
  have hepi := earliestPermissibleIndex_le entries cutIndex
  have h1 := List.take_append_drop (cutIndex - earliestPermissibleIndex entries cutIndex)
    (entries.drop (earliestPermissibleIndex entries cutIndex))
  rw [List.drop_drop] at h1
  have h2 : earliestPermissibleIndex entries cutIndex +
      (cutIndex - earliestPermissibleIndex entries cutIndex) = cutIndex := by omega
  rw [h2] at h1
  rw [walkSegment]
  exact h1.symm

theorem count_boundary_decomp (entries : List SessionEntry) (cutIndex : Nat) :
    countMessagesFromIndex entries (earliestPermissibleIndex entries cutIndex) =
      ((walkSegment entries cutIndex).filter isMessageEntry).length +
        countMessagesFromIndex entries cutIndex := by
  rw [countMessagesFromIndex, drop_boundary_decomp entries cutIndex, List.filter_append,
    List.length_append, countMessagesFromIndex]

theorem walkBack_fst_le (entries : List SessionEntry) (cutIndex need : Nat) :
    (walkBack entries cutIndex need).1 ≤
      cutIndex - earliestPermissibleIndex entries cutIndex := by
  rw [walkBack]
  have h := walkBackSeg_fst_le (walkSegment entries cutIndex).reverse need
  rw [List.length_reverse] at h
  exact le_trans h (walkSegment_length_le entries cutIndex)

theorem adjust_eq_none_of_not_found {entries : List SessionEntry} {cid : String}
    {minM : Nat} (hf : findEntryIndex entries cid = none) :
    adjustCutPointForMinMessages entries cid minM = none := by
  unfold adjustCutPointForMinMessages
  rw [hf]

theorem adjust_eq_of_found {entries : List SessionEntry} {cid : String} {minM cutIndex : Nat}
    (hf : findEntryIndex entries cid = some cutIndex) :
    adjustCutPointForMinMessages entries cid minM =
      if minM ≤ countMessagesFromIndex entries cutIndex then none
      else adjustWalkResult entries cutIndex (minM - countMessagesFromIndex entries cutIndex) := by
  unfold adjustCutPointForMinMessages
  rw [hf]

theorem adjust_some_inv {entries : List SessionEntry} {cid : String} {minM : Nat}
    {r : AdjustResult} (h : adjustCutPointForMinMessages entries cid minM = some r) :
    ∃ cutIndex e, findEntryIndex entries cid = some cutIndex ∧
      countMessagesFromIndex entries cutIndex < minM ∧
      (walkBack entries cutIndex (minM - countMessagesFromIndex entries cutIndex)).1 ≠ 0 ∧
      entries[cutIndex -
        (walkBack entries cutIndex (minM - countMessagesFromIndex entries cutIndex)).1]? =
        some e ∧
      r = ⟨true, e.id,
        (walkBack entries cutIndex
          (minM - countMessagesFromIndex entries cutIndex)).2.reverse⟩ := by
  cases hf : findEntryIndex entries cid with
  | none =>
      rw [adjust_eq_none_of_not_found hf] at h
      exact absurd h (by simp)
  | some cutIndex =>
      rw [adjust_eq_of_found hf] at h
      by_cases hle : minM ≤ countMessagesFromIndex entries cutIndex
      · rw [if_pos hle] at h
        exact absurd h (by simp)
      · rw [if_neg hle] at h
        unfold adjustWalkResult at h
        by_cases hw :
            (walkBack entries cutIndex (minM - countMessagesFromIndex entries cutIndex)).1 = 0
        · rw [if_pos hw] at h
          exact absurd h (by simp)
        · rw [if_neg hw] at h
          cases he : entries[cutIndex -
              (walkBack entries cutIndex
                (minM - countMessagesFromIndex entries cutIndex)).1]? with
          | none =>
              rw [he] at h
              exact absurd h (by simp)
          | some e =>
              rw [he] at h
              have h' : r = ⟨true, e.id,
                  (walkBack entries cutIndex
                    (minM - countMessagesFromIndex entries cutIndex)).2.reverse⟩ := by
                have h2 := h.symm
                simpa using h2
              exact ⟨cutIndex, e, rfl, by omega, hw, he, h'⟩

/-! ## Claim C1 -/

/-- C1: for every entry sequence, cut point and minimum, the backward walk of
`adjustCutPointForMinMessages` never places the new boundary at or before a
prior compaction entry: (i) no compaction entry occurs at or after the
earliest permissible index and before the cut point; (ii) the earliest
permissible index is 0 or the index immediately after a compaction entry
occurring before the cut point; (iii) whenever the adjuster returns a
result, the returned `newFirstKeptEntryId` is the id of an entry at or after
the earliest permissible index; and (iv) for
[message 1, compaction, message 2, message 3 (cut), message 4, message 5]
with minMessages = 10 the result has `newFirstKeptEntryId` = "2". -/
theorem claim_C1_boundary_respected :
    (∀ (entries : List SessionEntry) (cutIndex j : Nat) (e : SessionEntry),
        earliestPermissibleIndex entries cutIndex ≤ j → j < cutIndex →
        entries[j]? = some e → e.kind ≠ EntryKind.compaction) ∧
    (∀ (entries : List SessionEntry) (cutIndex : Nat),
        earliestPermissibleIndex entries cutIndex = 0 ∨
        ∃ e, entries[earliestPermissibleIndex entries cutIndex - 1]? = some e ∧
          e.kind = EntryKind.compaction ∧
          earliestPermissibleIndex entries cutIndex - 1 < cutIndex) ∧
    (∀ (entries : List SessionEntry) (cutEntryId : String) (minM : Nat) (r : AdjustResult),
        adjustCutPointForMinMessages entries cutEntryId minM = some r →
        ∃ cutIndex newIndex e, findEntryIndex entries cutEntryId = some cutIndex ∧
          earliestPermissibleIndex entries cutIndex ≤ newIndex ∧
          entries[newIndex]? = some e ∧ r.newFirstKeptEntryId = e.id) ∧
    (adjustCutPointForMinMessages
        [msgE "1", compE "c", msgE "2", msgE "3", msgE "4", msgE "5"] "3" 10).map
      (fun r => r.newFirstKeptEntryId) = some "2" := by
  refine ⟨?_, ?_, ?_, by decide⟩
  · intro entries cutIndex j e h1 h2 h3
    exact no_compaction_after_boundary j e h1 h2 h3
  · intro entries cutIndex
    by_cases h : 0 < earliestPermissibleIndex entries cutIndex
    · exact Or.inr (boundary_pos_compaction h)
    · exact Or.inl (by omega)
  · intro entries cid minM r h
    obtain ⟨cutIndex, e, hf, hlt, hw, he, hr⟩ := adjust_some_inv h
    refine ⟨cutIndex,
      cutIndex - (walkBack entries cutIndex (minM - countMessagesFromIndex entries cutIndex)).1,
      e, hf, ?_, he, by rw [hr]⟩
    have h1 := walkBack_fst_le entries cutIndex (minM - countMessagesFromIndex entries cutIndex)
    have h2 := earliestPermissibleIndex_le entries cutIndex
    omega

/-- Witness for C1: the general boundary statement applied at the concrete
compaction-boundary example. -/
theorem claim_C1_boundary_respected_witness :
    adjustCutPointForMinMessages
        [msgE "1", compE "c", msgE "2", msgE "3", msgE "4", msgE "5"] "3" 10 =
      some ⟨true, "2", [msgE "2"]⟩ ∧
    (∃ cutIndex newIndex e,
        findEntryIndex [msgE "1", compE "c", msgE "2", msgE "3", msgE "4", msgE "5"] "3" =
          some cutIndex ∧
        earliestPermissibleIndex [msgE "1", compE "c", msgE "2", msgE "3", msgE "4", msgE "5"]
            cutIndex ≤ newIndex ∧
        [msgE "1", compE "c", msgE "2", msgE "3", msgE "4", msgE "5"][newIndex]? = some e ∧
        (AdjustResult.mk true "2" [msgE "2"]).newFirstKeptEntryId = e.id) :=
  ⟨by decide,
    claim_C1_boundary_respected.2.2.1
      [msgE "1", compE "c", msgE "2", msgE "3", msgE "4", msgE "5"] "3" 10
      ⟨true, "2", [msgE "2"]⟩ (by decide)⟩

/-! ## Claim C3 -/

/-- C3: `adjustCutPointForMinMessages` returns null (and no error) whenever
the cut entry id is not present in the entry sequence, and whenever the
count of message/custom_message entries from the cut point's index to the
end, inclusive, is already at least `minMessages`; in particular, for
all-message entries [1..6], cut at id "3" with minMessages = 3 the result is
null. -/
theorem claim_C3_null_cases :
    (∀ (entries : List SessionEntry) (cutEntryId : String) (minM : Nat),
        (∀ e ∈ entries, e.id ≠ cutEntryId) →
        adjustCutPointForMinMessages entries cutEntryId minM = none) ∧
    (∀ (entries : List SessionEntry) (cutEntryId : String) (minM cutIndex : Nat),
        findEntryIndex entries cutEntryId = some cutIndex →
        minM ≤ countMessagesFromIndex entries cutIndex →
        adjustCutPointForMinMessages entries cutEntryId minM = none) ∧
    adjustCutPointForMinMessages
      [msgE "1", msgE "2", msgE "3", msgE "4", msgE "5", msgE "6"] "3" 3 = none := by
  refine ⟨?_, ?_, by decide⟩
  · intro entries cid minM hall
    exact adjust_eq_none_of_not_found (findEntryIndex_none entries cid hall)
  · intro entries cid minM cutIndex hf hle
    rw [adjust_eq_of_found hf, if_pos hle]

/-- Witness for C3: both null cases applied at concrete inputs. -/
theorem claim_C3_null_cases_witness :
    (∀ e ∈ [msgE "1", msgE "2"], e.id ≠ "zz") ∧
    adjustCutPointForMinMessages [msgE "1", msgE "2"] "zz" 5 = none ∧
    findEntryIndex [msgE "1", msgE "2", msgE "3", msgE "4", msgE "5", msgE "6"] "3" = some 2 ∧
    3 ≤ countMessagesFromIndex [msgE "1", msgE "2", msgE "3", msgE "4", msgE "5", msgE "6"] 2 ∧
    adjustCutPointForMinMessages
      [msgE "1", msgE "2", msgE "3", msgE "4", msgE "5", msgE "6"] "3" 3 = none :=
  ⟨by decide,
    claim_C3_null_cases.1 [msgE "1", msgE "2"] "zz" 5 (by decide),
    by decide, by decide,
    claim_C3_null_cases.2.1 [msgE "1", msgE "2", msgE "3", msgE "4", msgE "5", msgE "6"]
      "3" 3 2 (by decide) (by decide)⟩

/-! ## Claim C4 -/

/-- C4: when the requested minimum exceeds the total messages available in
the permissible range, `adjustCutPointForMinMessages` moves the cut point as
far back as permissible and returns `adjusted = true` with
`newFirstKeptEntryId` at the earliest permissible entry (concretely, for
message entries [1,2,3,4], cut at id "3", minMessages = 10, it returns
adjusted = true with newFirstKeptEntryId = "1"); but if the cut point is
already at the earliest permissible index so the walk can add no entries
(entries [1,2], cut at id "1", minMessages = 10), it returns null. -/
theorem claim_C4_best_effort :
    (∀ (entries : List SessionEntry) (cutEntryId : String) (minM cutIndex : Nat),
        findEntryIndex entries cutEntryId = some cutIndex →
        countMessagesFromIndex entries (earliestPermissibleIndex entries cutIndex) < minM →
        earliestPermissibleIndex entries cutIndex < cutIndex →
        ∃ e, entries[earliestPermissibleIndex entries cutIndex]? = some e ∧
          (adjustCutPointForMinMessages entries cutEntryId minM).map
            (fun r => (r.adjusted, r.newFirstKeptEntryId)) = some (true, e.id)) ∧
    (∀ (entries : List SessionEntry) (cutEntryId : String) (minM cutIndex : Nat),
        findEntryIndex entries cutEntryId = some cutIndex →
        earliestPermissibleIndex entries cutIndex = cutIndex →
        adjustCutPointForMinMessages entries cutEntryId minM = none) ∧
    adjustCutPointForMinMessages [msgE "1", msgE "2", msgE "3", msgE "4"] "3" 10 =
      some ⟨true, "1", [msgE "1", msgE "2"]⟩ ∧
    adjustCutPointForMinMessages [msgE "1", msgE "2"] "1" 10 = none := by
  refine ⟨?_, ?_, by decide, by decide⟩
  · intro entries cid minM cutIndex hf htot hlt
    have hepi := earliestPermissibleIndex_le entries cutIndex
    obtain ⟨ecut, hecut, hecutid⟩ := findEntryIndex_some entries cid cutIndex hf
    have hcutlen : cutIndex < entries.length := (List.getElem?_eq_some.mp hecut).1
    have hdecomp := count_boundary_decomp entries cutIndex
    have hcc : countMessagesFromIndex entries cutIndex < minM := by omega
    have hnc : ∀ e ∈ (walkSegment entries cutIndex).reverse,
        e.kind ≠ EntryKind.compaction := by
      intro e he
      exact walkSegment_no_compaction entries cutIndex e (List.mem_reverse.mp he)
    have hrevlt : ((walkSegment entries cutIndex).reverse.filter isMessageEntry).length <
        minM - countMessagesFromIndex entries cutIndex := by
      rw [List.filter_reverse, List.length_reverse]
      omega
    have hwalk := walkBackSeg_exhausts (walkSegment entries cutIndex).reverse
      (minM - countMessagesFromIndex entries cutIndex) hnc hrevlt
    have hseglen : (walkSegment entries cutIndex).length =
        cutIndex - earliestPermissibleIndex entries cutIndex :=
      walkSegment_length entries cutIndex (le_of_lt hcutlen)
    have hfst : (walkBack entries cutIndex
        (minM - countMessagesFromIndex entries cutIndex)).1 =
        cutIndex - earliestPermissibleIndex entries cutIndex := by
      rw [walkBack, hwalk]
      show (walkSegment entries cutIndex).reverse.length = _
      rw [List.length_reverse, hseglen]
    have hepilt : earliestPermissibleIndex entries cutIndex < entries.length := by omega
    refine ⟨entries[earliestPermissibleIndex entries cutIndex],
      List.getElem?_eq_getElem hepilt, ?_⟩
    rw [adjust_eq_of_found hf,
      if_neg (by omega : ¬ minM ≤ countMessagesFromIndex entries cutIndex)]
    unfold adjustWalkResult
    rw [hfst]
    rw [if_neg (by omega : ¬ (cutIndex - earliestPermissibleIndex entries cutIndex) = 0)]
    have hidx : cutIndex - (cutIndex - earliestPermissibleIndex entries cutIndex) =
        earliestPermissibleIndex entries cutIndex := by omega
    rw [hidx, List.getElem?_eq_getElem hepilt]
    simp
  · intro entries cid minM cutIndex hf heq
    rw [adjust_eq_of_found hf]
    by_cases hle : minM ≤ countMessagesFromIndex entries cutIndex
    · rw [if_pos hle]
    · rw [if_neg hle]
      have hseg : walkSegment entries cutIndex = [] := by
        rw [walkSegment, heq]
        simp
      unfold adjustWalkResult
      have hwb : walkBack entries cutIndex
          (minM - countMessagesFromIndex entries cutIndex) = (0, []) := by
        rw [walkBack, hseg]
        simp [walkBackSeg]
      rw [hwb]
      simp

/-- Witness for C4: both branches applied at the concrete examples. -/
theorem claim_C4_best_effort_witness :
    (findEntryIndex [msgE "1", msgE "2", msgE "3", msgE "4"] "3" = some 2 ∧
      countMessagesFromIndex [msgE "1", msgE "2", msgE "3", msgE "4"]
        (earliestPermissibleIndex [msgE "1", msgE "2", msgE "3", msgE "4"] 2) < 10 ∧
      earliestPermissibleIndex [msgE "1", msgE "2", msgE "3", msgE "4"] 2 < 2) ∧
    (∃ e, [msgE "1", msgE "2", msgE "3", msgE "4"][earliestPermissibleIndex
        [msgE "1", msgE "2", msgE "3", msgE "4"] 2]? = some e ∧
      (adjustCutPointForMinMessages [msgE "1", msgE "2", msgE "3", msgE "4"] "3" 10).map
        (fun r => (r.adjusted, r.newFirstKeptEntryId)) = some (true, e.id)) ∧
    adjustCutPointForMinMessages [msgE "1", msgE "2"] "1" 10 = none :=
  ⟨⟨by decide, by decide, by decide⟩,
    claim_C4_best_effort.1 [msgE "1", msgE "2", msgE "3", msgE "4"] "3" 10 2
      (by decide) (by decide) (by decide),
    claim_C4_best_effort.2.1 [msgE "1", msgE "2"] "1" 10 0 (by decide) (by decide)⟩

/-! ## Claim C2 -/

/-- Counterexample to C2 as stated: on
[msg 1, thinking_level_change, msg 2, model_change, msg 3 (cut), msg 4, msg 5]
with minMessages = 4 the walk moves the boundary to id "2" (index 2), so the
model_change entry at index 3 is crossed, yet `messagesToAdd` is exactly
[message entry 2] and does not contain the crossed metadata entry.  The
claim asserts metadata entries "are still collected into messagesToAdd",
which would force the collected list to contain the model_change entry (and
have length 2), contradicting both this result and the claim's own (and the
test suite's) expected length 1. -/
theorem claim_C2_counterexample :
    adjustCutPointForMinMessages
        [msgE "1", tlcE "meta1", msgE "2", mcE "meta2", msgE "3", msgE "4", msgE "5"] "3" 4 =
      some ⟨true, "2", [msgE "2"]⟩ ∧
    mcE "meta2" ∉ ([msgE "2"] : List SessionEntry) := by
  exact ⟨by decide, by decide⟩

/-- C2 (amended): during the backward walk, metadata entries
(thinking_level_change, model_change) do not increment the message count
and, although crossed, are not collected into `messagesToAdd` — the
collected entries are exactly the message/custom_message entries among the
crossed prefix; the walk stops as soon as
currentCount + newlyIncluded ≥ minMessages (it never collects more than the
missing count).  Consequently, for 7 message entries with ids 1..7, cut at
id "5" and minMessages = 5, the result is adjusted = true,
newFirstKeptEntryId = "3" and messagesToAdd has length 2; and for
[msg 1, thinking_level_change, msg 2, model_change, msg 3 (cut), msg 4,
msg 5] with minMessages = 4, messagesToAdd has length 1. -/
theorem claim_C2_metadata_walk :
    (∀ (need : Nat) (l : List SessionEntry),
        (walkBackSeg need l).2 =
          (l.take (walkBackSeg need l).1).filter isMessageEntry) ∧
    (∀ (need : Nat) (l : List SessionEntry), 1 ≤ need →
        (walkBackSeg need l).2.length ≤ need) ∧
    adjustCutPointForMinMessages
        [msgE "1", msgE "2", msgE "3", msgE "4", msgE "5", msgE "6", msgE "7"] "5" 5 =
      some ⟨true, "3", [msgE "3", msgE "4"]⟩ ∧
    (adjustCutPointForMinMessages
        [msgE "1", tlcE "meta1", msgE "2", mcE "meta2", msgE "3", msgE "4", msgE "5"]
        "3" 4).map (fun r => r.messagesToAdd.length) = some 1 := by
  exact ⟨fun need l => walkBackSeg_snd_eq l need,
    fun need l h => walkBackSeg_len_le l need h, by decide, by decide⟩

/-- Witness for C2 (amended): the stop-bound statement applied at a concrete
walk. -/
theorem claim_C2_metadata_walk_witness :
    1 ≤ 2 ∧ (walkBackSeg 2 [msgE "a", tlcE "m", msgE "b", msgE "c"]).2.length ≤ 2 :=
  ⟨by decide, claim_C2_metadata_walk.2.1 2 [msgE "a", tlcE "m", msgE "b", msgE "c"] (by decide)⟩

/-! ## Helper lemmas: adaptive chunk ratio -/

theorem shareOfContext_nonneg (messages : List Message) (W : Nat) :
    0 ≤ shareOfContext messages W := by
  rw [shareOfContext, averageMessageTokens]
  apply div_nonneg
  apply div_nonneg
  · apply List.sum_nonneg
    intro x hx
    obtain ⟨m, _, rfl⟩ := List.mem_map.mp hx
    exact Nat.cast_nonneg _
  · exact Nat.cast_nonneg _
  · exact Nat.cast_nonneg _

theorem shareOfContext_nil (W : Nat) : shareOfContext [] W = 0 := by
  simp [shareOfContext, averageMessageTokens]

theorem minChunkRatio_le_baseChunkRatio : minChunkRatio ≤ baseChunkRatio := by
  norm_num [minChunkRatio, baseChunkRatio]

theorem computeAdaptiveChunkRatio_eq_base {messages : List Message} {W : Nat}
    (h : shareOfContext messages W ≤ 1 / 10) :
    computeAdaptiveChunkRatio messages W = baseChunkRatio := by
  by_cases hemp : messages.isEmpty
  · rw [computeAdaptiveChunkRatio, if_pos hemp]
  · rw [computeAdaptiveChunkRatio, if_neg hemp, if_pos h]

theorem computeAdaptiveChunkRatio_mem (messages : List Message) (W : Nat) :
    minChunkRatio ≤ computeAdaptiveChunkRatio messages W ∧
      computeAdaptiveChunkRatio messages W ≤ baseChunkRatio := by
  rw [computeAdaptiveChunkRatio]
  split_ifs with h1 h2
  · exact ⟨minChunkRatio_le_baseChunkRatio, le_refl _⟩
  · exact ⟨minChunkRatio_le_baseChunkRatio, le_refl _⟩
  · exact ⟨le_max_left _ _, max_le minChunkRatio_le_baseChunkRatio (min_le_left _ _)⟩

theorem computeAdaptiveChunkRatio_antitone (ms1 ms2 : List Message) (W : Nat)
    (h : shareOfContext ms1 W ≤ shareOfContext ms2 W) :
    computeAdaptiveChunkRatio ms2 W ≤ computeAdaptiveChunkRatio ms1 W := by
  by_cases h2 : shareOfContext ms2 W ≤ 1 / 10
  · rw [computeAdaptiveChunkRatio_eq_base (le_trans h h2),
      computeAdaptiveChunkRatio_eq_base h2]
  · by_cases h1 : shareOfContext ms1 W ≤ 1 / 10
    · rw [computeAdaptiveChunkRatio_eq_base h1]
      exact (computeAdaptiveChunkRatio_mem ms2 W).2
    · have hne1 : ¬ (ms1.isEmpty = true) := fun hemp =>
        h1 (by rw [List.isEmpty_iff.mp hemp, shareOfContext_nil]; norm_num)
      have hne2 : ¬ (ms2.isEmpty = true) := fun hemp =>
        h2 (by rw [List.isEmpty_iff.mp hemp, shareOfContext_nil]; norm_num)
      rw [computeAdaptiveChunkRatio, computeAdaptiveChunkRatio,
        if_neg hne1, if_neg hne2, if_neg h1, if_neg h2]
      apply max_le_max le_rfl
      apply min_le_min le_rfl
      have hs1pos : 0 < shareOfContext ms1 W := by
        have := not_le.mp h1
        linarith
      have hbpos : (0 : ℚ) ≤ baseChunkRatio * (1 / 10) := by
        norm_num [baseChunkRatio]
      gcongr

/-! ## Claim C5 -/

/-- C5: `computeAdaptiveChunkRatio` returns the base chunk ratio on an empty
list, returns the base chunk ratio whenever the mean per-message token
estimate divided by the context window is at most 0.10, always returns a
value in [minChunkRatio, baseChunkRatio] (the modelled values of
MIN_CHUNK_RATIO and BASE_CHUNK_RATIO), and is non-increasing as the average
message size (share of context) increases. -/
theorem claim_C5_adaptive_ratio :
    (∀ (W : Nat), computeAdaptiveChunkRatio [] W = baseChunkRatio) ∧
    (∀ (messages : List Message) (W : Nat), shareOfContext messages W ≤ 1 / 10 →
        computeAdaptiveChunkRatio messages W = baseChunkRatio) ∧
    (∀ (messages : List Message) (W : Nat),
        minChunkRatio ≤ computeAdaptiveChunkRatio messages W ∧
        computeAdaptiveChunkRatio messages W ≤ baseChunkRatio) ∧
    (∀ (ms1 ms2 : List Message) (W : Nat),
        shareOfContext ms1 W ≤ shareOfContext ms2 W →
        computeAdaptiveChunkRatio ms2 W ≤ computeAdaptiveChunkRatio ms1 W) := by
  exact ⟨fun W => rfl,
    fun messages W h => computeAdaptiveChunkRatio_eq_base h,
    computeAdaptiveChunkRatio_mem,
    computeAdaptiveChunkRatio_antitone⟩

theorem share_abcd_1000 :
    shareOfContext [⟨"user", MessageContent.str "abcd", "", "", false, []⟩] 1000 ≤ 1 / 10 := by
  have h4 : "abcd".length = 4 := rfl
  norm_num [shareOfContext, averageMessageTokens, estimateMessageTokens, estimateTokens, h4]

theorem share_abcd_le_abcdefgh :
    shareOfContext [⟨"user", MessageContent.str "abcd", "", "", false, []⟩] 4 ≤
      shareOfContext [⟨"user", MessageContent.str "abcdefgh", "", "", false, []⟩] 4 := by
  have h4 : "abcd".length = 4 := rfl
  have h8 : "abcdefgh".length = 8 := rfl
  norm_num [shareOfContext, averageMessageTokens, estimateMessageTokens, estimateTokens, h4, h8]

/-- Witness for C5: the small-share and monotonicity statements applied at
concrete message lists. -/
theorem claim_C5_adaptive_ratio_witness :
    (shareOfContext [⟨"user", MessageContent.str "abcd", "", "", false, []⟩] 1000 ≤ 1 / 10 ∧
      computeAdaptiveChunkRatio [⟨"user", MessageContent.str "abcd", "", "", false, []⟩] 1000 =
        baseChunkRatio) ∧
    (shareOfContext [⟨"user", MessageContent.str "abcd", "", "", false, []⟩] 4 ≤
        shareOfContext [⟨"user", MessageContent.str "abcdefgh", "", "", false, []⟩] 4 ∧
      computeAdaptiveChunkRatio [⟨"user", MessageContent.str "abcdefgh", "", "", false, []⟩] 4 ≤
        computeAdaptiveChunkRatio [⟨"user", MessageContent.str "abcd", "", "", false, []⟩] 4) :=
  ⟨⟨share_abcd_1000, claim_C5_adaptive_ratio.2.1
      [⟨"user", MessageContent.str "abcd", "", "", false, []⟩] 1000 share_abcd_1000⟩,
    ⟨share_abcd_le_abcdefgh, claim_C5_adaptive_ratio.2.2.2
      [⟨"user", MessageContent.str "abcd", "", "", false, []⟩]
      [⟨"user", MessageContent.str "abcdefgh", "", "", false, []⟩] 4
      share_abcd_le_abcdefgh⟩⟩

/-! ## Claim C6 -/

theorem estimateMessageTokens_str (r tid tn : String) (ie : Bool)
    (ds : List (String × String)) (s : String) :
    estimateMessageTokens ⟨r, MessageContent.str s, tid, tn, ie, ds⟩ =
      (s.length + 3) / 4 := rfl

/-- C6: `isOversizedForSummary` returns true iff the message's estimated
token count (4 characters per token, summed over text blocks for array
content) multiplied by the safety margin (a constant greater than 1,
reference value 1.2) exceeds half the context window; in particular a
13-character message against a 200000-token window is not oversized, and a
message of 480000 characters against that window is oversized. -/
theorem claim_C6_oversize :
    (∀ (m : Message) (W : Nat),
        isOversizedForSummary m W = true ↔
          (W : ℚ) * (1 / 2) < (estimateMessageTokens m : ℚ) * SAFETY_MARGIN) ∧
    (1 : ℚ) < SAFETY_MARGIN ∧
    isOversizedForSummary ⟨"user", MessageContent.str "Hello, world!", "", "", false, []⟩
      200000 = false ∧
    isOversizedForSummary
      ⟨"user", MessageContent.str (String.mk (List.replicate 480000 'x')), "", "", false, []⟩
      200000 = true := by
  refine ⟨?_, by norm_num [SAFETY_MARGIN], ?_, ?_⟩
  · intro m W
    rw [isOversizedForSummary]
    exact decide_eq_true_iff
  · have h13 : estimateMessageTokens
        ⟨"user", MessageContent.str "Hello, world!", "", "", false, []⟩ = 4 := rfl
    rw [isOversizedForSummary, h13, decide_eq_false_iff_not]
    norm_num [SAFETY_MARGIN]
  · have hlen : String.length (String.mk (List.replicate 480000 'x')) = 480000 := by
      show (List.replicate 480000 'x').length = 480000
      exact List.length_replicate 480000 'x'
    have hbig : estimateMessageTokens
        ⟨"user", MessageContent.str (String.mk (List.replicate 480000 'x')), "", "",
          false, []⟩ = 120000 := by
      rw [estimateMessageTokens_str, hlen]
    rw [isOversizedForSummary, hbig, decide_eq_true_eq]
    norm_num [SAFETY_MARGIN]

/-! ## Helper lemmas: tool failure collection -/

theorem mkToolFailure_toolCallId (m : Message) :
    (mkToolFailure m).toolCallId = m.toolCallId := rfl

theorem collectToolFailuresAux_eq_dedup : ∀ (messages : List Message) (seen : List String),
    collectToolFailuresAux messages seen =
      dedupFailuresAux ((messages.filter isFailingToolResult).map mkToolFailure) seen := by
  intro messages
  induction messages with
  | nil => intro seen; rfl
  | cons m rest ih =>
      intro seen
      rw [collectToolFailuresAux, List.filter_cons]
      by_cases hm : isFailingToolResult m
      · rw [if_pos hm, if_pos hm, List.map_cons, dedupFailuresAux,
          mkToolFailure_toolCallId]
        by_cases hs : seen.contains m.toolCallId
        · rw [if_pos hs, if_pos hs, ih seen]
        · rw [if_neg hs, if_neg hs, ih (m.toolCallId :: seen)]
      · rw [if_neg hm]
        have hm' : isFailingToolResult m = false := by
          exact Bool.not_eq_true _ ▸ (by simpa using hm)
        rw [hm', if_neg (by simp), ih seen]

theorem dedupFailuresAux_sublist : ∀ (l : List ToolFailure) (seen : List String),
    (dedupFailuresAux l seen).Sublist l := by
  intro l
  induction l with
  | nil => intro seen; exact List.Sublist.refl []
  | cons f rest ih =>
      intro seen
      rw [dedupFailuresAux]
      by_cases hs : seen.contains f.toolCallId
      · rw [if_pos hs]
        exact List.Sublist.cons f (ih seen)
      · rw [if_neg hs]
        exact List.Sublist.cons₂ f (ih (f.toolCallId :: seen))

theorem dedupFailuresAux_nodup : ∀ (l : List ToolFailure) (seen : List String),
    ((dedupFailuresAux l seen).map (fun f => f.toolCallId)).Nodup ∧
    ∀ s ∈ (dedupFailuresAux l seen).map (fun f => f.toolCallId), s ∉ seen := by
  intro l
  induction l with
  | nil => intro seen; exact ⟨List.nodup_nil, by simp [dedupFailuresAux]⟩
  | cons f rest ih =>
      intro seen
      rw [dedupFailuresAux]
      by_cases hs : seen.contains f.toolCallId
      · rw [if_pos hs]
        exact ih seen
      · rw [if_neg hs]
        obtain ⟨hnd, hout⟩ := ih (f.toolCallId :: seen)
        rw [List.map_cons]
        constructor
        · rw [List.nodup_cons]
          refine ⟨fun hin => ?_, hnd⟩
          exact hout f.toolCallId hin (List.mem_cons_self _ _)
        · intro s hsmem hseen
          rcases List.mem_cons.mp hsmem with heq | hin
          · subst heq
            exact hs (List.elem_iff.mpr hseen)
          · exact hout s hin (List.mem_cons_of_mem _ hseen)

/-! ## Claim C7 -/

/-- C7: `collectToolFailures` keeps exactly the failing tool results (role
"toolResult" with isError true): it equals the first-occurrence
deduplication by `toolCallId` of the failures derived, in input order, from
the failing messages; the returned `toolCallId`s are pairwise distinct;
every returned failure is derived from a failing message of the input; and
the failure's message is the concatenation of text blocks in order, or the
literal string "failed" when no text blocks exist. -/
theorem claim_C7_collect_failures :
    (∀ (messages : List Message),
        collectToolFailures messages =
          dedupFailures ((messages.filter isFailingToolResult).map mkToolFailure)) ∧
    (∀ (messages : List Message),
        ((collectToolFailures messages).map (fun f => f.toolCallId)).Nodup) ∧
    (∀ (messages : List Message) (f : ToolFailure), f ∈ collectToolFailures messages →
        ∃ m, m ∈ messages ∧ isFailingToolResult m = true ∧ f = mkToolFailure m) ∧
    (∀ (m : Message), (mkToolFailure m).message =
        if (textParts m).isEmpty then "failed" else String.join (textParts m)) ∧
    (∀ (m : Message), isFailingToolResult m = true ↔
        (m.role = "toolResult" ∧ m.isError = true)) := by
  refine ⟨?_, ?_, ?_, fun m => rfl, fun m => decide_eq_true_iff⟩
  · intro messages
    exact collectToolFailuresAux_eq_dedup messages []
  · intro messages
    rw [collectToolFailures, collectToolFailuresAux_eq_dedup messages []]
    exact (dedupFailuresAux_nodup _ []).1
  · intro messages f hf
    rw [collectToolFailures, collectToolFailuresAux_eq_dedup messages []] at hf
    have hsub := dedupFailuresAux_sublist
      ((messages.filter isFailingToolResult).map mkToolFailure) []
    have hmem := hsub.mem hf
    obtain ⟨m, hmfilter, hmk⟩ := List.mem_map.mp hmem
    obtain ⟨hmmem, hmfail⟩ := List.mem_filter.mp hmfilter
    exact ⟨m, hmmem, hmfail, hmk.symm⟩

/-- Witness for C7: the derivation statement applied at a concrete failing
tool result. -/
theorem claim_C7_collect_failures_witness :
    mkToolFailure
        ⟨"toolResult", MessageContent.blocks [], "call-1", "exec", true, [("exitCode", "2")]⟩ ∈
      collectToolFailures
        [⟨"toolResult", MessageContent.blocks [], "call-1", "exec", true, [("exitCode", "2")]⟩] ∧
    (∃ m, m ∈
        [⟨"toolResult", MessageContent.blocks [], "call-1", "exec", true, [("exitCode", "2")]⟩] ∧
      isFailingToolResult m = true ∧
      mkToolFailure
          ⟨"toolResult", MessageContent.blocks [], "call-1", "exec", true, [("exitCode", "2")]⟩ =
        mkToolFailure m) :=
  ⟨by decide,
    claim_C7_collect_failures.2.2.1
      [⟨"toolResult", MessageContent.blocks [], "call-1", "exec", true, [("exitCode", "2")]⟩]
      (mkToolFailure
        ⟨"toolResult", MessageContent.blocks [], "call-1", "exec", true, [("exitCode", "2")]⟩)
      (by decide)⟩

/-! ## Claim C8 -/

/-- C8: `formatToolFailuresSection` returns the empty string exactly for an
empty failure list; otherwise it renders a section headed "## Tool Failures"
whose body is one line per failure, "toolName (meta): message" with the
parenthetical omitted when meta is empty, capped at 8 failure lines, plus
exactly one overflow line "...and N more" with N = total - 8 when more than
8 failures exist; 9 failures yield 8 rendered lines plus "...and 1 more". -/
theorem claim_C8_format_section :
    (∀ (failures : List ToolFailure),
        formatToolFailuresSection failures = "" ↔ failures = []) ∧
    (∀ (failures : List ToolFailure), failures ≠ [] →
        formatToolFailuresSection failures =
          "## Tool Failures\n" ++
            String.intercalate "\n"
              ((failures.take 8).map formatFailureLine ++
                (if 8 < failures.length then
                  ["...and " ++ toString (failures.length - 8) ++ " more"]
                else []))) ∧
    (∀ (failures : List ToolFailure),
        ((failures.take 8).map formatFailureLine).length = min 8 failures.length) ∧
    (∀ (f : ToolFailure), formatFailureLine f =
        if f.meta = "" then f.toolName ++ ": " ++ f.message
        else f.toolName ++ " (" ++ f.meta ++ "): " ++ f.message) ∧
    formatToolFailuresSection
        [⟨"c1", "exec", "", "e1"⟩, ⟨"c2", "exec", "", "e2"⟩, ⟨"c3", "exec", "", "e3"⟩,
          ⟨"c4", "exec", "", "e4"⟩, ⟨"c5", "exec", "", "e5"⟩, ⟨"c6", "exec", "", "e6"⟩,
          ⟨"c7", "exec", "", "e7"⟩, ⟨"c8", "exec", "", "e8"⟩, ⟨"c9", "exec", "", "e9"⟩] =
      "## Tool Failures\nexec: e1\nexec: e2\nexec: e3\nexec: e4\nexec: e5\nexec: e6\nexec: e7\nexec: e8\n...and 1 more" := by
  have hstruct : ∀ (failures : List ToolFailure), failures ≠ [] →
      formatToolFailuresSection failures =
        "## Tool Failures\n" ++
          String.intercalate "\n"
            ((failures.take 8).map formatFailureLine ++
              (if 8 < failures.length then
                ["...and " ++ toString (failures.length - 8) ++ " more"]
              else [])) := by
    intro failures h
    rw [formatToolFailuresSection, if_neg (by simpa [List.isEmpty_iff] using h)]
  refine ⟨?_, hstruct, ?_, fun f => rfl, by decide⟩
  · intro failures
    constructor
    · intro h
      by_contra hne
      rw [hstruct failures hne] at h
      have hlen := congrArg String.length h
      have h17 : ("## Tool Failures\n").length = 17 := rfl
      have h0 : ("" : String).length = 0 := rfl
      rw [String.length_append, h17, h0] at hlen
      omega
    · intro h
      subst h
      rfl
  · intro failures
    rw [List.length_map, List.length_take]

/-- Witness for C8: the section structure applied at a one-element failure
list. -/
theorem claim_C8_format_section_witness :
    (([⟨"c1", "exec", "m", "boom"⟩] : List ToolFailure) ≠ []) ∧
    formatToolFailuresSection [⟨"c1", "exec", "m", "boom"⟩] =
      "## Tool Failures\n" ++
        String.intercalate "\n"
          ((([⟨"c1", "exec", "m", "boom"⟩] : List ToolFailure).take 8).map formatFailureLine ++
            (if 8 < ([⟨"c1", "exec", "m", "boom"⟩] : List ToolFailure).length then
              ["...and " ++ toString (([⟨"c1", "exec", "m", "boom"⟩] :
                List ToolFailure).length - 8) ++ " more"]
            else [])) :=
  ⟨by decide,
    claim_C8_format_section.2.1 [⟨"c1", "exec", "m", "boom"⟩] (by decide)⟩

/-! ## Claim C9 -/

/-- C9: the runtime-configuration registry is an identity-keyed single-slot
map: setting a configuration for one session-manager identity leaves the
configuration read back for every other identity unchanged; reading back the
identity just written returns exactly what was set (so setting null makes a
subsequent get return null); and for invalid identities (null or undefined)
set is a silent no-op and get returns null. -/
theorem claim_C9_registry :
    (∀ (reg : RuntimeRegistry) (i j : SessionManagerId)
        (cfg : Option CompactionSafeguardRuntime), i ≠ j →
        getCompactionSafeguardRuntime (setCompactionSafeguardRuntime reg i cfg) j =
          getCompactionSafeguardRuntime reg j) ∧
    (∀ (reg : RuntimeRegistry) (n : Nat) (cfg : Option CompactionSafeguardRuntime),
        getCompactionSafeguardRuntime (setCompactionSafeguardRuntime reg
          (SessionManagerId.obj n) cfg) (SessionManagerId.obj n) = cfg) ∧
    (∀ (reg : RuntimeRegistry) (cfg : Option CompactionSafeguardRuntime),
        setCompactionSafeguardRuntime reg SessionManagerId.nullId cfg = reg ∧
        setCompactionSafeguardRuntime reg SessionManagerId.undefinedId cfg = reg) ∧
    (∀ (reg : RuntimeRegistry),
        getCompactionSafeguardRuntime reg SessionManagerId.nullId = none ∧
        getCompactionSafeguardRuntime reg SessionManagerId.undefinedId = none) := by
  refine ⟨?_, ?_, fun reg cfg => ⟨rfl, rfl⟩, fun reg => ⟨rfl, rfl⟩⟩
  · intro reg i j cfg hij
    cases i with
    | nullId => rfl
    | undefinedId => rfl
    | obj n =>
        cases j with
        | nullId => rfl
        | undefinedId => rfl
        | obj m =>
            have hnm : m ≠ n := fun h => hij (by rw [h])
            show (if m = n then cfg else reg m) = reg m
            rw [if_neg hnm]
  · intro reg n cfg
    show (if n = n then cfg else reg n) = cfg
    rw [if_pos rfl]

/-- Witness for C9: isolation applied at two concrete object identities. -/
theorem claim_C9_registry_witness :
    (SessionManagerId.obj 0 ≠ SessionManagerId.obj 1) ∧
    getCompactionSafeguardRuntime
        (setCompactionSafeguardRuntime emptyRegistry (SessionManagerId.obj 0)
          (some ⟨some (3 / 10), none⟩)) (SessionManagerId.obj 1) =
      getCompactionSafeguardRuntime emptyRegistry (SessionManagerId.obj 1) :=
  ⟨by decide,
    claim_C9_registry.1 emptyRegistry (SessionManagerId.obj 0) (SessionManagerId.obj 1)
      (some ⟨some (3 / 10), none⟩) (by decide)⟩

/-! ## Claim C10 -/

/-- C10: `stripToolMessages` returns the order-preserving subsequence
obtained by removing exactly those elements that are objects whose `role`
property equals "toolResult": it equals the filter by the claim's predicate,
it is a sublist of the input (order preserved, nothing else touched — the
function is pure, so the input list is unchanged), every non-object element
(including null) and every object with any other role is kept, and the
output never contains a toolResult message. -/
theorem claim_C10_strip_tool_messages :
    (∀ (messages : List UnknownVal),
        stripToolMessages messages =
          messages.filter (fun v => !(isToolResultObject v))) ∧
    (∀ (messages : List UnknownVal), (stripToolMessages messages).Sublist messages) ∧
    (∀ (messages : List UnknownVal),
        (stripToolMessages messages).all (fun v => !(isToolResultObject v)) = true) := by
  have hpt : ∀ (v : UnknownVal),
      (if isFalsy v || !(typeOf v = "object" : Bool) then true
        else !(roleIsToolResult v)) = !(isToolResultObject v) := by
    intro v
    cases v with
    | nullV => rfl
    | undefinedV => rfl
    | boolV b => cases b <;> rfl
    | numV q => simp [isFalsy, typeOf, isToolResultObject]
    | strV s => simp [isFalsy, typeOf, isToolResultObject]
    | objV fields =>
        simp only [isFalsy, typeOf, isToolResultObject]
        cases hl : lookupField fields "role" with
        | none => simp [roleIsToolResult, getRoleProp, hl]
        | some u =>
            cases u <;> simp [roleIsToolResult, getRoleProp, hl]
    | arrV elems => simp [isFalsy, typeOf, roleIsToolResult, getRoleProp, isToolResultObject]
  have heq : ∀ (messages : List UnknownVal),
      stripToolMessages messages =
        messages.filter (fun v => !(isToolResultObject v)) := by
    intro messages
    rw [stripToolMessages]
    exact List.filter_congr (fun x _ => hpt x)
  refine ⟨heq, ?_, ?_⟩
  · intro messages
    rw [heq messages]
    exact List.filter_sublist messages
  · intro messages
    rw [heq messages, List.all_eq_true]
    intro v hv
    exact (List.mem_filter.mp hv).2
